import Mathlib

set_option maxHeartbeats 1000000

deriving instance DecidableEq for Except

namespace TelegramBot

/-- Embedding of the error type `InvalidTagError` from src/format.rs; the `tag`
field holds the message text passed to `InvalidTagError::new`. -/
structure InvalidTagError where
  tag : List Char
deriving DecidableEq, Repr

/-- Embedding of the `Decoration` enum from src/format.rs. -/
inductive Decoration where
  | Bold
  | Italic
  | Underlined
  | MonoSpace
  | Spoiler
  | Link (target : List Char)
deriving DecidableEq, Repr

/-- Canonical name of a decoration, from the `#[assoc(name = ...)]` attributes
on the `Decoration` enum. -/
def Decoration.name : Decoration → List Char
  | .Bold => "bold".toList
  | .Italic => "italic".toList
  | .Underlined => "underline".toList
  | .MonoSpace => "mono-space".toList
  | .Spoiler => "spoiler".toList
  | .Link _ => "link".toList

/-- Embedding of `Decoration::from` (which consults the `#[assoc(by_name = ...)]`
aliases, with the special case for `"link"` producing an empty placeholder
target). -/
def Decoration.fromName (name : List Char) : Option Decoration :=
  if name = "link".toList then some (.Link [])
  else if name = "bold".toList then some .Bold
  else if name = "italic".toList then some .Italic
  else if name = "underline".toList then some .Underlined
  else if name = "underlined".toList then some .Underlined
  else if name = "mono-space".toList then some .MonoSpace
  else if name = "code".toList then some .MonoSpace
  else if name = "spoiler".toList then some .Spoiler
  else none

/-- Embedding of the `Style` struct from src/format.rs. -/
structure Style where
  tags : List Decoration
deriving DecidableEq, Repr

/-- `Style::default()`: the empty style. -/
def Style.default : Style := ⟨[]⟩

/-- Embedding of `Style::decorate`: append each decoration whose canonical name
is not already present. -/
def Style.decorate (s : Style) (decorations : List Decoration) : Style :=
  decorations.foldl
    (fun acc d =>
      if acc.tags.any (fun tag => tag.name == d.name) then acc
      else ⟨acc.tags ++ [d]⟩)
    s

/-- Embedding of the `Component` struct from src/format.rs. -/
structure Component where
  text : List Char
  style : Style
deriving DecidableEq, Repr

/-- Embedding of `create_component` from src/format.rs. -/
def create_component (content : List Char) (open_tags : List Decoration) : Component :=
  ⟨content, Style.default.decorate open_tags⟩

/-- Parser-internal `Tag` struct from src/format.rs. -/
structure Tag where
  decoration : Decoration
  closing : Bool
deriving DecidableEq, Repr

/-- Splits a tag body at the first colon, embedding `content.splitn(2, ':')`:
the first component is the part before the first `:`, the second is the
remainder (when a `:` is present). -/
def splitFirstColon : List Char → List Char × Option (List Char)
  | [] => ([], none)
  | c :: rest =>
    if c = ':' then ([], some rest)
    else
      let split := splitFirstColon rest
      (c :: split.1, split.2)

/-- Embedding of `create_tag` from src/format.rs: the name is the part
before the first colon, a leading slash marks a closing tag, and a
non-closing link tag requires the part after the colon as its target. -/
def create_tag (content : List Char) : Except InvalidTagError Tag :=
  let name := if (splitFirstColon content).1.head? = some '/'
    then (splitFirstColon content).1.tail else (splitFirstColon content).1
  match Decoration.fromName name with
  | none => .error ⟨content⟩
  | some decoration =>
    if (splitFirstColon content).1.head? = some '/' then .ok ⟨decoration, true⟩
    else
      match decoration with
      | .Link _ =>
        match (splitFirstColon content).2 with
        | none => .error ⟨"missing link target".toList⟩
        | some target => .ok ⟨.Link target, false⟩
      | d => .ok ⟨d, false⟩

/-- The stack update the parser performs for a closing tag: `rfind` the
most-recently-opened decoration with the matching canonical name and remove
exactly that entry (no-op when there is no match). -/
def removeLastByName (open_tags : List Decoration) (name : List Char) : List Decoration :=
  (open_tags.reverse.eraseP (fun d => d.name == name)).reverse

/-- The scanning loop of `parse` from src/format.rs.  State: remaining input,
a deferred-backslash flag `esc`, `building_tag`, the accumulation buffer
`token`, the open-tag stack, and the components emitted so far.  The source
loop handles a backslash by peeking at the next character
(`iter.peek().filter(..)`): when the next character is `<`, `>` or `\` the
backslash arm consumes it into the buffer, otherwise the backslash falls
through to the default arm and is pushed literally.  This embedding realizes
the same two-character decision one step later: on `\` it sets `esc` and on
the following step pushes the escaped character alone (escapable next
character), the backslash and the character (other next character, which is
then never tag-significant since `<`, `>`, `\` are all escapable), or a
trailing lone backslash at end of input. -/
def parseGo : List Char → Bool → Bool → List Char → List Decoration → List Component →
    Except InvalidTagError (List Component)
  | [], esc, building, token, open_tags, components =>
    let token := if esc then token ++ ['\\'] else token
    if building then
      .error ⟨"missing closing bracket after '".toList ++ token ++ "'".toList⟩
    else
      .ok (components ++ [create_component token open_tags])
  | c :: rest, esc, building, token, open_tags, components =>
    if esc then
      if c = '<' ∨ c = '>' ∨ c = '\\' then
        parseGo rest false building (token ++ [c]) open_tags components
      else
        parseGo rest false building (token ++ ['\\', c]) open_tags components
    else if c = '<' ∧ building = false then
      parseGo rest false true [] open_tags
        (if token = [] then components else components ++ [create_component token open_tags])
    else if c = '>' ∧ building = true then
      match create_tag token with
      | .error e => .error e
      | .ok tag =>
        parseGo rest false false []
          (if tag.closing then removeLastByName open_tags tag.decoration.name
           else open_tags ++ [tag.decoration])
          components
    else if c = '\\' then
      parseGo rest true building token open_tags components
    else
      parseGo rest false building (token ++ [c]) open_tags components

/-- Embedding of `parse` from src/format.rs. -/
def parse (text : List Char) : Except InvalidTagError (List Component) :=
  parseGo text false false [] [] []

/-- Single-character `str::replace`: every occurrence of `pat` is replaced by
`rep`, left to right. -/
def replaceChar (pat : Char) (rep : List Char) : List Char → List Char
  | [] => []
  | c :: rest => (if c = pat then rep else [c]) ++ replaceChar pat rep rest

/-- Embedding of `escape_tags` from src/format.rs: replace `\` first, then `<`,
then `>`. -/
def escape_tags (text : List Char) : List Char :=
  replaceChar '>' "\\>".toList
    (replaceChar '<' "\\<".toList
      (replaceChar '\\' "\\\\".toList text))

/-- The HTML escaping of component text performed inside `to_html` in
src/request.rs: replace `&` first, then `<`, then `>`. -/
def escape_html (text : List Char) : List Char :=
  replaceChar '>' "&gt;".toList
    (replaceChar '<' "&lt;".toList
      (replaceChar '&' "&amp;".toList text))

/-- The per-decoration data used by the match inside `to_html`'s tag loop in
src/request.rs: the name pushed onto `opened_html_tags`, and the text placed
between `<` and `>` for the opening tag. -/
def htmlOpenData : Decoration → List Char × List Char
  | .Bold => ("b".toList, "b".toList)
  | .Italic => ("i".toList, "i".toList)
  | .Underlined => ("u".toList, "u".toList)
  | .MonoSpace => ("code".toList, "code".toList)
  | .Spoiler => ("tg-spoiler".toList, "tg-spoiler".toList)
  | .Link link => ("a".toList, "a href=\"".toList ++ link ++ "\"".toList)

/-- The body of the per-component closure inside `to_html` in src/request.rs:
fold over the style's tags pushing opened names and emitting opening tags,
append the escaped component text, then emit a closing tag for each entry of
`opened_html_tags` in the order the loop visits them. -/
def to_html_component (component : Component) : List Char :=
  let folded := component.style.tags.foldl
    (fun (acc : List (List Char) × List Char) tag =>
      (acc.1 ++ [(htmlOpenData tag).1],
        acc.2 ++ ('<' :: (htmlOpenData tag).2) ++ ['>']))
    ([], [])
  let part := folded.2 ++ escape_html component.text
  folded.1.foldl (fun part name => part ++ ('<' :: '/' :: name) ++ ['>']) part

/-- Embedding of `to_html` from src/request.rs: parse, render each component,
and join the renderings (the error is wrapped into a `TelegramError` in the
source; the wrapping adds no information used here). -/
def to_html (text : List Char) : Except InvalidTagError (List Char) :=
  (parse text).map (fun components => (components.map to_html_component).flatten)

/-- Modelled from the spec (§4.4): the character-wise effect of the escaper --
the backslash, `<` and `>` each receive a leading backslash, every other
character is kept as is. -/
def specEscapeTagChar (c : Char) : List Char :=
  if c = '\\' then "\\\\".toList
  else if c = '<' then "\\<".toList
  else if c = '>' then "\\>".toList
  else [c]

/-- Modelled from the spec (§3, Component invariant): the input text with tag
markup (the brackets and their contents) and escape-introducing backslashes
removed, every other character kept.  The traversal mirrors the parser's
scanning state: `esc` is a pending backslash whose role is not yet decided,
`building` is the inside-a-bracket mode. -/
def stripMarkup : List Char → Bool → Bool → List Char
  | [], esc, building =>
    if building then [] else if esc then ['\\'] else []
  | c :: rest, esc, building =>
    if esc then
      if c = '<' ∨ c = '>' ∨ c = '\\' then
        (if building then [] else [c]) ++ stripMarkup rest false building
      else
        (if building then [] else ['\\', c]) ++ stripMarkup rest false building
    else if c = '<' ∧ building = false then stripMarkup rest false true
    else if c = '>' ∧ building = true then stripMarkup rest false false
    else if c = '\\' then stripMarkup rest true building
    else (if building then [] else [c]) ++ stripMarkup rest false building

/-- Modelled from the spec (§7): the two offending situations of the error
taxonomy, each carrying the offending tag's text. -/
inductive Offense where
  | unknownName (body : List Char)
  | missingTarget (body : List Char)
  | unterminated (body : List Char)
deriving DecidableEq, Repr

/-- Modelled from the spec (§7 (a)): whether a tag body fails to resolve --
the name (the part before the first colon, a leading slash marking a closing
tag) does not resolve to a known Decoration, or a non-closing link tag has no
target. -/
def bodyOffense (body : List Char) : Option Offense :=
  if (splitFirstColon body).1.head? = some '/' then
    match Decoration.fromName (splitFirstColon body).1.tail with
    | none => some (.unknownName body)
    | some _ => none
  else
    match Decoration.fromName (splitFirstColon body).1, (splitFirstColon body).2 with
    | none, _ => some (.unknownName body)
    | some (.Link _), none => some (.missingTarget body)
    | some _, _ => none

/-- Modelled from the spec (§7): the first offending situation the scan
meets: the first tag body that fails to resolve, or the end of input while
still inside an open bracket. -/
def firstOffense : List Char → Bool → Bool → List Char → Option Offense
  | [], esc, building, token =>
    if building then some (.unterminated (token ++ if esc then ['\\'] else [])) else none
  | c :: rest, esc, building, token =>
    if esc then
      if c = '<' ∨ c = '>' ∨ c = '\\' then firstOffense rest false building (token ++ [c])
      else firstOffense rest false building (token ++ ['\\', c])
    else if c = '<' ∧ building = false then firstOffense rest false true []
    else if c = '>' ∧ building = true then
      match bodyOffense token with
      | some o => some o
      | none => firstOffense rest false false []
    else if c = '\\' then firstOffense rest true building token
    else firstOffense rest false building (token ++ [c])

/-- The error value the source constructs for each offending situation. -/
def Offense.toError : Offense → InvalidTagError
  | .unknownName body => ⟨body⟩
  | .missingTarget _ => ⟨"missing link target".toList⟩
  | .unterminated body => ⟨"missing closing bracket after '".toList ++ body ++ "'".toList⟩

/-- The offending tag's raw text carried by an offense. -/
def Offense.rawText : Offense → List Char
  | .unknownName body => body
  | .missingTarget body => body
  | .unterminated body => body

/-- The error of a fallible computation, when there is one. -/
def exceptError {ε α : Type} : Except ε α → Option ε
  | .error e => some e
  | .ok _ => none

/-- Modelled from the spec (§4.5, §6): the fixed opening tag emitted for each
decoration in the target dialect. -/
def specOpenTag : Decoration → List Char
  | .Bold => "<b>".toList
  | .Italic => "<i>".toList
  | .Underlined => "<u>".toList
  | .MonoSpace => "<code>".toList
  | .Spoiler => "<tg-spoiler>".toList
  | .Link target => "<a href=\"".toList ++ target ++ "\">".toList

/-- Modelled from the spec (§6): the fixed target-dialect tag name of each
decoration. -/
def specHtmlName : Decoration → List Char
  | .Bold => "b".toList
  | .Italic => "i".toList
  | .Underlined => "u".toList
  | .MonoSpace => "code".toList
  | .Spoiler => "tg-spoiler".toList
  | .Link _ => "a".toList

/-- Closing tag for a target-dialect tag name. -/
def specCloseTag (d : Decoration) : List Char :=
  "</".toList ++ specHtmlName d ++ ">".toList

/-- Modelled from the spec (§4.5): character-wise entity escaping of literal
text, with no double-escaping. -/
def specEscapeChar (c : Char) : List Char :=
  if c = '&' then "&amp;".toList
  else if c = '<' then "&lt;".toList
  else if c = '>' then "&gt;".toList
  else [c]

/-- Character-wise escaping of a whole text. -/
def specEscape (text : List Char) : List Char :=
  (text.map specEscapeChar).flatten

/-- Modelled from the spec (§4.5): one component's rendering: the opening
tags in style order, the escaped text, then one closing tag per opened
decoration (the source closes them in the same order it opened them). -/
def specRenderComponent (c : Component) : List Char :=
  (c.style.tags.map specOpenTag).flatten ++ specEscape c.text ++
    (c.style.tags.map specCloseTag).flatten

/-- No two decorations of the list share a canonical name. -/
def nodupNames (tags : List Decoration) : Prop :=
  tags.Pairwise (fun a b => a.name ≠ b.name)

/-- C9: name resolution maps `underline` and `underlined` to `Underlined`,
`mono-space` and `code` to `MonoSpace`, `bold`, `italic` and `spoiler` to
their respective kinds, `link` to a Link decoration with an empty placeholder
target, and every other name to none. -/
theorem c9_name_resolution :
    Decoration.fromName "underline".toList = some .Underlined ∧
    Decoration.fromName "underlined".toList = some .Underlined ∧
    Decoration.fromName "mono-space".toList = some .MonoSpace ∧
    Decoration.fromName "code".toList = some .MonoSpace ∧
    Decoration.fromName "bold".toList = some .Bold ∧
    Decoration.fromName "italic".toList = some .Italic ∧
    Decoration.fromName "spoiler".toList = some .Spoiler ∧
    Decoration.fromName "link".toList = some (.Link []) ∧
    ∀ name : List Char,
      name ∉ ["link".toList, "bold".toList, "italic".toList, "underline".toList,
        "underlined".toList, "mono-space".toList, "code".toList, "spoiler".toList] →
      Decoration.fromName name = none := by
  refine ⟨by decide, by decide, by decide, by decide, by decide, by decide, by decide,
    by decide, ?_⟩
  intro name h
  simp only [List.mem_cons, List.not_mem_nil, or_false, not_or] at h
  obtain ⟨h1, h2, h3, h4, h5, h6, h7, h8⟩ := h
  simp only [Decoration.fromName, if_neg h1, if_neg h2, if_neg h3, if_neg h4, if_neg h5,
    if_neg h6, if_neg h7, if_neg h8]

/-- Witness for C9 at the concrete unknown name `blink`. -/
theorem c9_name_resolution_witness : Decoration.fromName "blink".toList = none :=
  c9_name_resolution.2.2.2.2.2.2.2.2 "blink".toList (by decide)

/-- C4: processing a closing tag searches the open-tag stack from
most-recently-opened to least-recently-opened for the first entry with a
matching canonical name and removes exactly that entry, leaving all other
entries unchanged; with no matching entry the stack is unchanged. -/
theorem c4_closing_tag_search (open_tags : List Decoration) (n : List Char) :
    ((∀ d ∈ open_tags, d.name ≠ n) → removeLastByName open_tags n = open_tags) ∧
    (∀ pre d post, open_tags = pre ++ d :: post → d.name = n →
      (∀ d2 ∈ post, d2.name ≠ n) → removeLastByName open_tags n = pre ++ post) := by
  constructor
  · intro h
    unfold removeLastByName
    rw [List.eraseP_of_forall_not, List.reverse_reverse]
    intro a ha
    simpa using h a (List.mem_reverse.mp ha)
  · rintro pre d post rfl hd hpost
    unfold removeLastByName
    have hrev : (pre ++ d :: post).reverse = post.reverse ++ (d :: pre.reverse) := by
      simp
    rw [hrev, List.eraseP_append_right, List.eraseP_cons_of_pos (by simpa using hd)]
    · simp
    · intro b hb
      simpa using hpost b (List.mem_reverse.mp hb)

/-- Witness for C4: the most-recently-opened matching entry is the one that
goes, entries above and below stay. -/
theorem c4_closing_tag_search_witness :
    removeLastByName
      [Decoration.Bold, Decoration.Italic, Decoration.Bold, Decoration.Spoiler]
      "bold".toList = [Decoration.Bold, Decoration.Italic, Decoration.Spoiler] :=
  (c4_closing_tag_search _ _).2 [Decoration.Bold, Decoration.Italic] Decoration.Bold
    [Decoration.Spoiler] rfl (by decide) (by decide)

/-- C2: the claim says the renderer closes the opened target-dialect tags in
reverse order of opening, so a Component with Style [Bold, Italic] would close
with the italic tag first; evaluating the code at that input shows it closes
them in the same order it opened them instead. -/
theorem c2_closing_order_eval :
    to_html "<bold><italic>bar".toList = .ok "<b><i>bar</b></i>".toList := by decide

/-- C3 counterexample: for the input consisting of one complete tag the result
contains an empty-text Component, because the final flush at end of input
pushes a Component unconditionally. -/
theorem c3_counterexample :
    parse "<bold>".toList = .ok [⟨[], Style.mk [Decoration.Bold]⟩] ∧
    (Component.mk [] (Style.mk [Decoration.Bold])).text = [] := by decide

/-- The shape of every successful scan: the components present on entry are
kept, the components emitted at mid-input flush points all have non-empty
text, and the final flush contributes exactly one further component. -/
theorem parseGo_ok_shape (rest : List Char) :
    ∀ esc building token open_tags comps out,
      parseGo rest esc building token open_tags comps = .ok out →
      ∃ mid last, out = comps ++ mid ++ [last] ∧ ∀ c ∈ mid, c.text ≠ [] := by
  induction rest with
  | nil =>
    intro esc building token open_tags comps out h
    cases building with
    | true => simp [parseGo] at h
    | false =>
      simp only [parseGo, if_neg (Bool.false_ne_true), Except.ok.injEq] at h
      exact ⟨[], create_component (if esc then token ++ ['\\'] else token) open_tags,
        by simp [h.symm], by simp⟩
  | cons c rest ih =>
    intro esc building token open_tags comps out h
    simp only [parseGo] at h
    split at h
    · split at h
      · exact ih _ _ _ _ _ _ h
      · exact ih _ _ _ _ _ _ h
    · split at h
      · split at h
        · exact ih _ _ _ _ _ _ h
        · obtain ⟨mid, last, hout, hmid⟩ := ih _ _ _ _ _ _ h
          refine ⟨create_component token open_tags :: mid, last, by simp [hout], ?_⟩
          intro x hx
          rcases List.mem_cons.mp hx with hx | hx
          · subst hx
            simpa [create_component] using by assumption
          · exact hmid x hx
      · split at h
        · split at h
          · exact absurd h (by simp)
          · exact ih _ _ _ _ _ _ h
        · split at h
          · exact ih _ _ _ _ _ _ h
          · exact ih _ _ _ _ _ _ h

/-- C3 amended: a Component is emitted at a mid-input flush point only when
the buffer is non-empty, so consecutive tags with no text between them emit
no empty Component between them; the final flush at end of input, however,
always emits exactly one Component even when the remaining buffer is empty,
so every successful parse yields a non-empty result whose components all have
non-empty text except possibly the last. -/
theorem c3_amended_flush (text : List Char) (comps : List Component)
    (h : parse text = .ok comps) :
    comps ≠ [] ∧ ∀ c ∈ comps.dropLast, c.text ≠ [] := by
  obtain ⟨mid, last, rfl, hmid⟩ := parseGo_ok_shape text false false [] [] [] comps h
  refine ⟨by simp, ?_⟩
  simpa [List.dropLast_concat] using hmid

/-- Witness for the amended C3 at a concrete input. -/
theorem c3_amended_flush_witness :
    ([⟨"a".toList, Style.mk []⟩, ⟨"b".toList, Style.mk [Decoration.Bold]⟩] :
      List Component) ≠ [] :=
  (c3_amended_flush "a<bold>b".toList _ (by decide)).1

/-- One scanning step on a backslash with no pending escape: defer the
decision. -/
theorem parseGo_backslash_step (l : List Char) (b : Bool) (token : List Char)
    (open_tags : List Decoration) (comps : List Component) :
    parseGo ('\\' :: l) false b token open_tags comps =
      parseGo l true b token open_tags comps := by
  cases b <;> rfl

/-- One scanning step after a backslash when the following character is
escapable: the escaped character alone joins the buffer. -/
theorem parseGo_esc_step (c : Char) (l : List Char) (b : Bool) (token : List Char)
    (open_tags : List Decoration) (comps : List Component)
    (h : c = '<' ∨ c = '>' ∨ c = '\\') :
    parseGo (c :: l) true b token open_tags comps =
      parseGo l false b (token ++ [c]) open_tags comps := by
  simp [parseGo, h]

/-- One scanning step on an unremarkable character outside a tag: it joins
the buffer. -/
theorem parseGo_plain_step (c : Char) (l : List Char) (token : List Char)
    (open_tags : List Decoration) (comps : List Component)
    (h1 : c ≠ '<') (h2 : c ≠ '>') (h3 : c ≠ '\\') :
    parseGo (c :: l) false false token open_tags comps =
      parseGo l false false (token ++ [c]) open_tags comps := by
  simp [parseGo, h1, h2, h3]

/-- `replaceChar` distributes over concatenation. -/
theorem replaceChar_append (p : Char) (r : List Char) (a b : List Char) :
    replaceChar p r (a ++ b) = replaceChar p r a ++ replaceChar p r b := by
  induction a with
  | nil => rfl
  | cons c rest ih => simp [replaceChar, ih]

/-- Head unfolding of `escape_tags`: the three sequential replacements act
character-wise, because the backslash is escaped before the backslashes
introduced for `<` and `>` ever appear. -/
theorem escape_tags_cons (c : Char) (rest : List Char) :
    escape_tags (c :: rest) = specEscapeTagChar c ++ escape_tags rest := by
  by_cases h1 : c = '\\'
  · subst h1
    simp [escape_tags, replaceChar, replaceChar_append, specEscapeTagChar]
  · by_cases h2 : c = '<'
    · subst h2
      simp [escape_tags, replaceChar, replaceChar_append, specEscapeTagChar]
    · by_cases h3 : c = '>'
      · subst h3
        simp [escape_tags, replaceChar, replaceChar_append, specEscapeTagChar]
      · simp [escape_tags, replaceChar, replaceChar_append, specEscapeTagChar, h1, h2, h3]

/-- `escape_tags` equals the character-wise escaping map. -/
theorem escape_tags_eq_flatten (text : List Char) :
    escape_tags text = (text.map specEscapeTagChar).flatten := by
  induction text with
  | nil => rfl
  | cons c rest ih => simp [escape_tags_cons, ih]

/-- Scanning an escaped text accumulates exactly the original text into the
buffer: no tag is opened, no component is emitted, no error occurs. -/
theorem parseGo_escaped (text : List Char) :
    ∀ r token open_tags comps,
      parseGo ((text.map specEscapeTagChar).flatten ++ r) false false token open_tags comps =
        parseGo r false false (token ++ text) open_tags comps := by
  induction text with
  | nil => intro r token o comps; simp
  | cons c rest ih =>
    intro r token o comps
    by_cases h1 : c = '\\'
    · subst h1
      show parseGo ('\\' :: '\\' :: ((rest.map specEscapeTagChar).flatten ++ r))
        false false token o comps = _
      rw [parseGo_backslash_step,
        parseGo_esc_step _ _ _ _ _ _ (Or.inr (Or.inr rfl)), ih]
      simp
    · by_cases h2 : c = '<'
      · subst h2
        show parseGo ('\\' :: '<' :: ((rest.map specEscapeTagChar).flatten ++ r))
          false false token o comps = _
        rw [parseGo_backslash_step, parseGo_esc_step _ _ _ _ _ _ (Or.inl rfl), ih]
        simp
      · by_cases h3 : c = '>'
        · subst h3
          show parseGo ('\\' :: '>' :: ((rest.map specEscapeTagChar).flatten ++ r))
            false false token o comps = _
          rw [parseGo_backslash_step,
            parseGo_esc_step _ _ _ _ _ _ (Or.inr (Or.inl rfl)), ih]
          simp
        · have hc : specEscapeTagChar c = [c] := by
            simp [specEscapeTagChar, h1, h2, h3]
          simp only [List.map_cons, List.flatten_cons, hc, List.singleton_append,
            List.cons_append]
          rw [parseGo_plain_step _ _ _ _ _ h2 h3 h1]
          simp only [List.nil_append]
          rw [ih]
          simp

/-- C1: parsing an escaped text always succeeds and yields exactly one
Component carrying the original text with the empty Style, for every input
text; and `escape_tags`, replacing `\` first, then `<`, then `>`, acts as the
character-wise escaping map (the later replacements never double-escape). -/
theorem c1_escape_roundtrip (text : List Char) :
    parse (escape_tags text) = .ok [⟨text, Style.default⟩] ∧
    escape_tags text = (text.map specEscapeTagChar).flatten := by
  have hflat := escape_tags_eq_flatten text
  refine ⟨?_, hflat⟩
  unfold parse
  rw [hflat, show (text.map specEscapeTagChar).flatten =
    (text.map specEscapeTagChar).flatten ++ [] by simp, parseGo_escaped]
  rfl

/-- Joining the texts of a successful scan's result: the components emitted
so far, then the buffer (when outside a bracket), then the stripped
remainder. -/
theorem parseGo_texts (rest : List Char) :
    ∀ esc building token open_tags comps out,
      parseGo rest esc building token open_tags comps = .ok out →
      (out.map Component.text).flatten =
        (comps.map Component.text).flatten ++ (if building then [] else token) ++
          stripMarkup rest esc building := by
  induction rest with
  | nil =>
    intro esc building token o comps out h
    cases building with
    | true => simp [parseGo] at h
    | false =>
      simp only [parseGo, if_neg (Bool.false_ne_true), Except.ok.injEq] at h
      subst h
      cases esc <;> simp [create_component, stripMarkup, List.append_assoc]
  | cons c rest ih =>
    intro esc building token o comps out h
    simp only [parseGo] at h
    split at h
    · rename_i hesc
      split at h
      · rename_i hcesc
        rw [ih _ _ _ _ _ _ h, hesc]
        cases building <;> simp [stripMarkup, hcesc, List.append_assoc]
      · rename_i hcesc
        rw [ih _ _ _ _ _ _ h, hesc]
        cases building <;> simp [stripMarkup, hcesc, List.append_assoc]
    · rename_i hesc
      have hesc0 : esc = false := by simpa using hesc
      subst hesc0
      split at h
      · rename_i hlt
        obtain ⟨rfl, rfl⟩ := hlt
        rw [ih _ _ _ _ _ _ h]
        split
        · rename_i htok
          subst htok
          simp [stripMarkup]
        · rename_i htok
          simp [stripMarkup, create_component, List.append_assoc]
      · split at h
        · rename_i hgt
          obtain ⟨rfl, rfl⟩ := hgt
          split at h
          · exact absurd h (by simp)
          · rw [ih _ _ _ _ _ _ h]
            simp [stripMarkup]
        · rename_i hgt
          split at h
          · rename_i hbs
            subst hbs
            rw [ih _ _ _ _ _ _ h]
            simp [stripMarkup, hgt]
          · rename_i hbs
            rename_i hlt
            rw [ih _ _ _ _ _ _ h]
            cases building
            · have hc : c ≠ '<' := fun hc => hlt ⟨hc, rfl⟩
              simp [stripMarkup, hc, hbs, List.append_assoc]
            · have hc : c ≠ '>' := fun hc => hgt ⟨hc, rfl⟩
              simp [stripMarkup, hc, hbs, List.append_assoc]

/-- C6: for every input on which `parse` succeeds, concatenating the text
fields of the returned Components in order yields the original input with tag
markup and escape-introducing backslashes removed, every other character
(including a lone backslash) kept literally. -/
theorem c6_text_reconstruction (text : List Char) (comps : List Component)
    (h : parse text = .ok comps) :
    (comps.map Component.text).flatten = stripMarkup text false false := by
  simpa using parseGo_texts text false false [] [] [] comps h

/-- Witness for C6 at a concrete input mixing an escape, a lone backslash and
a tag. -/
theorem c6_text_reconstruction_witness :
    (([⟨"<a".toList, Style.mk []⟩, ⟨"b\\c".toList, Style.mk [Decoration.Bold]⟩] :
      List Component).map Component.text).flatten =
      stripMarkup "\\<a<bold>b\\c".toList false false :=
  c6_text_reconstruction "\\<a<bold>b\\c".toList _ (by decide)

/-- Modelled from the spec (§3 Style invariant): the canonical names a list of
decorations adds to a style already carrying `seen` names -- each distinct
name once, in the order of its first addition. -/
def newNames (seen : List (List Char)) : List Decoration → List (List Char)
  | [] => []
  | d :: ds =>
    if d.name ∈ seen then newNames seen ds
    else d.name :: newNames (seen ++ [d.name]) ds

/-- C7: every Style built through `decorate` keeps the invariant that no two
entries share a canonical name: a decoration whose name is already present is
silently dropped (the first occurrence, payload included, is what lookup by
name finds), and the entry order lists each distinct name at its first
addition. -/
theorem c7_style_decorate (ds : List Decoration) :
    ∀ s : Style, nodupNames s.tags →
      nodupNames (s.decorate ds).tags ∧
      (∀ n : List Char, (s.decorate ds).tags.find? (fun d => d.name == n) =
        ((s.tags.find? (fun d => d.name == n)).or (ds.find? (fun d => d.name == n)))) ∧
      (s.decorate ds).tags.map Decoration.name =
        s.tags.map Decoration.name ++ newNames (s.tags.map Decoration.name) ds := by
  induction ds with
  | nil =>
    intro s h
    exact ⟨h, fun n => by simp [Style.decorate], by simp [Style.decorate, newNames]⟩
  | cons d ds ih =>
    intro s h
    have hstep : s.decorate (d :: ds) =
        Style.decorate (if s.tags.any (fun t => t.name == d.name) then s
          else ⟨s.tags ++ [d]⟩) ds := by
      simp only [Style.decorate, List.foldl_cons]
    by_cases hany : s.tags.any (fun t => t.name == d.name) = true
    · rw [hstep, if_pos hany]
      obtain ⟨hnodup, hfind, hnames⟩ := ih s h
      refine ⟨hnodup, ?_, ?_⟩
      · intro n
        rw [hfind n]
        by_cases hn : d.name = n
        · subst hn
          have hsome : (s.tags.find? (fun t => t.name == d.name)).isSome = true :=
            List.find?_isSome.mpr (List.any_eq_true.mp hany)
          rw [List.find?_cons_of_pos _ (by simp), Option.or_of_isSome hsome,
            Option.or_of_isSome hsome]
        · rw [List.find?_cons_of_neg _ (by simpa using hn)]
      · rw [hnames]
        have hmem : d.name ∈ s.tags.map Decoration.name := by
          obtain ⟨t, ht, hteq⟩ := List.any_eq_true.mp hany
          exact List.mem_map.mpr ⟨t, ht, by simpa using hteq⟩
        rw [newNames, if_pos hmem]
    · have hnone : ∀ t ∈ s.tags, t.name ≠ d.name := by
        intro t ht
        by_contra hc
        exact hany (List.any_eq_true.mpr ⟨t, ht, by simpa using hc⟩)
      have h2 : nodupNames (s.tags ++ [d]) := by
        refine List.pairwise_append.mpr ⟨h, List.pairwise_singleton _ _, ?_⟩
        intro a ha b hb
        rw [List.mem_singleton.mp hb]
        exact hnone a ha
      rw [hstep, if_neg hany]
      obtain ⟨hnodup, hfind, hnames⟩ := ih ⟨s.tags ++ [d]⟩ h2
      refine ⟨hnodup, ?_, ?_⟩
      · intro n
        rw [hfind n]
        simp only [List.find?_append, Option.or_assoc]
        have hsplit : ∀ p : Decoration → Bool,
            (List.find? p [d]).or (List.find? p ds) = List.find? p (d :: ds) := by
          intro p
          cases hpd : p d
          · rw [List.find?_cons_of_neg _ (by simp [hpd]),
              List.find?_cons_of_neg _ (by simp [hpd])]
            simp
          · rw [List.find?_cons_of_pos _ hpd, List.find?_cons_of_pos _ hpd]
            simp
        rw [hsplit]
      · rw [hnames]
        have hmem : d.name ∉ s.tags.map Decoration.name := by
          intro hc
          obtain ⟨t, ht, hteq⟩ := List.mem_map.mp hc
          exact hnone t ht hteq
        rw [newNames, if_neg hmem]
        simp

/-- Witness for C7: a duplicate-named Link keeps the first payload and the
invariant. -/
theorem c7_style_decorate_witness :
    nodupNames ((Style.mk [Decoration.Bold]).decorate
      [Decoration.Link "a".toList, Decoration.Bold, Decoration.Link "b".toList]).tags :=
  (c7_style_decorate
    [Decoration.Link "a".toList, Decoration.Bold, Decoration.Link "b".toList]
    ⟨[Decoration.Bold]⟩ (List.pairwise_singleton _ _)).1

/-- Head unfolding of `escape_html`: the three sequential replacements act
character-wise; the ampersands introduced for `<` and `>` are never escaped
again because `&` is replaced first. -/
theorem escape_html_cons (c : Char) (rest : List Char) :
    escape_html (c :: rest) = specEscapeChar c ++ escape_html rest := by
  by_cases h1 : c = '&'
  · subst h1
    simp [escape_html, replaceChar, replaceChar_append, specEscapeChar]
  · by_cases h2 : c = '<'
    · subst h2
      simp [escape_html, replaceChar, replaceChar_append, specEscapeChar]
    · by_cases h3 : c = '>'
      · subst h3
        simp [escape_html, replaceChar, replaceChar_append, specEscapeChar]
      · simp [escape_html, replaceChar, replaceChar_append, specEscapeChar, h1, h2, h3]

/-- `escape_html` equals the character-wise entity-escaping map. -/
theorem escape_html_eq (text : List Char) : escape_html text = specEscape text := by
  induction text with
  | nil => rfl
  | cons c rest ih => simp [escape_html_cons, specEscape, ih]

/-- The tag loop of `to_html` accumulates the opened names and the opening
tags of all decorations, in style order. -/
theorem foldl_openTags (tags : List Decoration) :
    ∀ acc : List (List Char) × List Char,
      tags.foldl
        (fun (acc : List (List Char) × List Char) tag =>
          (acc.1 ++ [(htmlOpenData tag).1],
            acc.2 ++ ('<' :: (htmlOpenData tag).2) ++ ['>'])) acc =
        (acc.1 ++ tags.map (fun tag => (htmlOpenData tag).1),
          acc.2 ++ (tags.map (fun tag => ('<' :: (htmlOpenData tag).2) ++ ['>'])).flatten) := by
  induction tags with
  | nil => intro acc; simp
  | cons t ts ih =>
    intro acc
    rw [List.foldl_cons, ih]
    simp

/-- The closing loop of `to_html` appends one closing tag per opened name, in
the order the names were pushed. -/
theorem foldl_closeTags (names : List (List Char)) :
    ∀ part : List Char,
      names.foldl (fun part name => part ++ ('<' :: '/' :: name) ++ ['>']) part =
        part ++ (names.map (fun name => ('<' :: '/' :: name) ++ ['>'])).flatten := by
  induction names with
  | nil => intro part; simp
  | cons n ns ih =>
    intro part
    rw [List.foldl_cons, ih]
    simp

/-- The renderer's per-component output equals the spec-side form: opening
tags from the fixed mapping in style order, character-wise escaped text, and
the closing tags of the same opened names. -/
theorem to_html_component_eq (c : Component) :
    to_html_component c = specRenderComponent c := by
  have hopen : ∀ tag : Decoration, ('<' :: (htmlOpenData tag).2) ++ ['>'] = specOpenTag tag := by
    intro tag
    cases tag <;> simp [htmlOpenData, specOpenTag]
  have hclose : ∀ tag : Decoration,
      ('<' :: '/' :: (htmlOpenData tag).1) ++ ['>'] = specCloseTag tag := by
    intro tag
    cases tag <;> simp [htmlOpenData, specCloseTag, specHtmlName]
  simp only [to_html_component]
  rw [foldl_openTags, foldl_closeTags]
  simp only [List.nil_append, escape_html_eq, List.map_map, Function.comp_def]
  simp only [hopen, hclose]
  simp [specRenderComponent, List.append_assoc]

/-- C8: the renderer maps each Decoration to its fixed target tag (Bold to b,
Italic to i, Underlined to u, MonoSpace to code, Spoiler to tg-spoiler, Link
to an anchor carrying the target in an href attribute), opens them in Style
order, escapes the text character-wise (amp, lt, gt entities, never
double-escaping), and concatenates the per-Component renderings in order. -/
theorem c8_render_refinement (comps : List Component) :
    (comps.map to_html_component).flatten = (comps.map specRenderComponent).flatten ∧
    ∀ c : Component, to_html_component c = specRenderComponent c := by
  refine ⟨?_, to_html_component_eq⟩
  rw [funext to_html_component_eq]

/-- C10: the renderer inserts a Link decoration's target into the href
attribute verbatim: whenever a rendered Component's Style contains Link(t),
the output contains the anchor opening with t unmodified, whatever characters
t contains. -/
theorem c10_href_verbatim (comps : List Component) (c : Component) (t : List Char)
    (hc : c ∈ comps) (ht : Decoration.Link t ∈ c.style.tags) :
    List.IsInfix ("<a href=\"".toList ++ t ++ "\">".toList)
      ((comps.map to_html_component).flatten) := by
  have h1 : List.IsInfix ("<a href=\"".toList ++ t ++ "\">".toList) (to_html_component c) := by
    rw [to_html_component_eq]
    unfold specRenderComponent
    rw [show "<a href=\"".toList ++ t ++ "\">".toList = specOpenTag (Decoration.Link t) from rfl]
    have h2 : List.IsInfix (specOpenTag (Decoration.Link t))
        ((c.style.tags.map specOpenTag).flatten) :=
      List.infix_of_mem_flatten (List.mem_map.mpr ⟨_, ht, rfl⟩)
    obtain ⟨s, u, hsu⟩ := h2
    exact ⟨s, u ++ (specEscape c.text ++ (c.style.tags.map specCloseTag).flatten), by
      rw [← hsu]
      simp [List.append_assoc]⟩
  have h3 : List.IsInfix (to_html_component c) ((comps.map to_html_component).flatten) :=
    List.infix_of_mem_flatten (List.mem_map.mpr ⟨c, hc, rfl⟩)
  exact h1.trans h3

/-- Witness for C10: a target containing a quote and angle brackets lands in
the href attribute unmodified. -/
theorem c10_href_verbatim_witness :
    List.IsInfix ("<a href=\"".toList ++ "x.io\"><b".toList ++ "\">".toList)
      (([⟨"y".toList, Style.mk [Decoration.Link "x.io\"><b".toList]⟩] :
        List Component).map to_html_component).flatten :=
  c10_href_verbatim _ ⟨"y".toList, Style.mk [Decoration.Link "x.io\"><b".toList]⟩ _
    (by decide) (by decide)

/-- Only the name `link` resolves to a Link decoration. -/
theorem fromName_link (n t : List Char)
    (h : Decoration.fromName n = some (.Link t)) : n = "link".toList := by
  unfold Decoration.fromName at h
  repeat' split at h
  all_goals simp_all

/-- When a tag body has no colon, the part before the first colon is the
whole body. -/
theorem splitFirstColon_none (l : List Char) :
    (splitFirstColon l).2 = none → (splitFirstColon l).1 = l := by
  induction l with
  | nil => intro _; rfl
  | cons c rest ih =>
    intro h
    by_cases hc : c = ':'
    · simp [splitFirstColon, hc] at h
    · simp only [splitFirstColon, if_neg hc] at h ⊢
      simp [ih h]

/-- `create_tag` fails exactly when the spec-side body check reports an
offense, and with exactly the corresponding error value. -/
theorem create_tag_err (body : List Char) :
    exceptError (create_tag body) = (bodyOffense body).map Offense.toError := by
  by_cases hslash : (splitFirstColon body).1.head? = some '/'
  · simp only [create_tag, bodyOffense, if_pos hslash]
    rcases hf : Decoration.fromName (splitFirstColon body).1.tail with _ | d
    · simp [exceptError, Offense.toError]
    · simp [exceptError]
  · simp only [create_tag, bodyOffense, if_neg hslash]
    rcases hf : Decoration.fromName (splitFirstColon body).1 with _ | d
    · simp [exceptError, Offense.toError]
    · rcases hs : (splitFirstColon body).2 with _ | target
      · cases d <;> simp [exceptError, Offense.toError]
      · cases d <;> simp [exceptError]

/-- A missing-target offense always has the raw body `link`. -/
theorem bodyOffense_missingTarget (tokenBody body : List Char)
    (h : bodyOffense tokenBody = some (.missingTarget body)) :
    body = tokenBody ∧ tokenBody = "link".toList := by
  by_cases hslash : (splitFirstColon tokenBody).1.head? = some '/'
  · simp only [bodyOffense, if_pos hslash] at h
    rcases hf : Decoration.fromName (splitFirstColon tokenBody).1.tail with _ | d <;>
      rw [hf] at h <;> simp at h
  · simp only [bodyOffense, if_neg hslash] at h
    rcases hf : Decoration.fromName (splitFirstColon tokenBody).1 with _ | d
    · rw [hf] at h
      simp at h
    · rw [hf] at h
      rcases hs : (splitFirstColon tokenBody).2 with _ | target
      · rw [hs] at h
        cases d with
        | Link t =>
          simp at h
          have h1 : (splitFirstColon tokenBody).1 = tokenBody :=
            splitFirstColon_none tokenBody hs
          have h2 := fromName_link _ _ hf
          rw [h1] at h2
          exact ⟨h.symm, h2⟩
        | Bold => simp at h
        | Italic => simp at h
        | Underlined => simp at h
        | MonoSpace => simp at h
        | Spoiler => simp at h
      · rw [hs] at h
        cases d <;> simp at h

/-- Every missing-target offense the scanner reports has raw body `link`. -/
theorem firstOffense_missingTarget (rest : List Char) :
    ∀ esc building token body,
      firstOffense rest esc building token = some (.missingTarget body) →
      body = "link".toList := by
  induction rest with
  | nil =>
    intro esc building token body h
    cases building <;> simp [firstOffense] at h
  | cons c rest ih =>
    intro esc building token body h
    simp only [firstOffense] at h
    split at h
    · split at h
      · exact ih _ _ _ _ h
      · exact ih _ _ _ _ h
    · split at h
      · exact ih _ _ _ _ h
      · split at h
        · split at h
          · rename_i ofs hbo
            injection h with h2
            subst h2
            exact (bodyOffense_missingTarget _ _ hbo).1.trans
              (bodyOffense_missingTarget _ _ hbo).2
          · exact ih _ _ _ _ h
        · split at h
          · exact ih _ _ _ _ h
          · exact ih _ _ _ _ h

/-- The scan fails with an error exactly when the spec-side scan reports an
offense, and the error is the one built from that first offense. -/
theorem parseGo_err (rest : List Char) :
    ∀ esc building token open_tags comps,
      exceptError (parseGo rest esc building token open_tags comps) =
        (firstOffense rest esc building token).map Offense.toError := by
  induction rest with
  | nil =>
    intro esc building token o comps
    cases building <;> cases esc <;>
      simp [parseGo, firstOffense, exceptError, Offense.toError, List.append_assoc]
  | cons c rest ih =>
    intro esc building token o comps
    cases esc with
    | true =>
      by_cases hcesc : c = '<' ∨ c = '>' ∨ c = '\\'
      · simp only [parseGo, firstOffense, if_pos rfl, if_pos hcesc]
        exact ih _ _ _ _ _
      · simp only [parseGo, firstOffense, if_pos rfl, if_neg hcesc]
        exact ih _ _ _ _ _
    | false =>
      by_cases h1 : c = '<' ∧ building = false
      · simp only [parseGo, firstOffense, if_neg (Bool.false_ne_true), if_pos h1]
        exact ih _ _ _ _ _
      · by_cases h2 : c = '>' ∧ building = true
        · simp only [parseGo, firstOffense, if_neg (Bool.false_ne_true), if_neg h1, if_pos h2]
          have hkey := create_tag_err token
          rcases hct : create_tag token with e | tag <;> rw [hct] at hkey
          · rcases hbo : bodyOffense token with _ | ofs <;> rw [hbo] at hkey
            · simp [exceptError] at hkey
            · simpa [exceptError] using hkey
          · rcases hbo : bodyOffense token with _ | ofs <;> rw [hbo] at hkey
            · exact ih _ _ _ _ _
            · simp [exceptError] at hkey
        · by_cases h3 : c = '\\'
          · simp only [parseGo, firstOffense, if_neg (Bool.false_ne_true), if_neg h1,
              if_neg h2, if_pos h3]
            exact ih _ _ _ _ _
          · simp only [parseGo, firstOffense, if_neg (Bool.false_ne_true), if_neg h1,
              if_neg h2, if_neg h3]
            exact ih _ _ _ _ _

/-- C5: `parse` returns an InvalidTagError exactly when some tag body fails
to resolve (unknown name, or non-closing link tag without target, the latter
as the missing-target variant) or the input ends inside an open bracket; the
error is the one built from the first such offense (no partial result), the
error text carries the offending tag's raw text, and no other input makes
`parse` fail. -/
theorem c5_error_taxonomy (text : List Char) :
    (∀ e, parse text = .error e ↔
      ∃ o, firstOffense text false false [] = some o ∧ e = o.toError) ∧
    (∀ e, parse text = .error e →
      ∃ o, firstOffense text false false [] = some o ∧
        List.IsInfix o.rawText e.tag) := by
  have hkey : exceptError (parse text) =
      (firstOffense text false false []).map Offense.toError :=
    parseGo_err text false false [] [] []
  have hiff : ∀ e, parse text = .error e ↔
      ∃ o, firstOffense text false false [] = some o ∧ e = o.toError := by
    intro e
    constructor
    · intro h
      rw [h] at hkey
      rcases ho : firstOffense text false false [] with _ | o
      · rw [ho] at hkey
        simp [exceptError] at hkey
      · rw [ho] at hkey
        refine ⟨o, rfl, ?_⟩
        have h2 : some e = some o.toError := by simpa [exceptError] using hkey
        exact Option.some.inj h2
    · rintro ⟨o, ho, rfl⟩
      rw [ho] at hkey
      rcases hp : parse text with e2 | comps
      · rw [hp] at hkey
        have h2 : some e2 = some o.toError := by simpa [exceptError] using hkey
        exact Option.some.inj h2 ▸ rfl
      · rw [hp] at hkey
        simp [exceptError] at hkey
  refine ⟨hiff, ?_⟩
  intro e h
  obtain ⟨o, ho, rfl⟩ := (hiff e).mp h
  cases o with
  | unknownName body =>
    exact ⟨_, ho, List.infix_refl _⟩
  | missingTarget body =>
    have hb : body = "link".toList := firstOffense_missingTarget text _ _ _ _ ho
    subst hb
    exact ⟨_, ho, by decide⟩
  | unterminated body =>
    exact ⟨_, ho, "missing closing bracket after '".toList, "'".toList, rfl⟩

/-- Witness for C5 at the concrete unknown tag `blink`. -/
theorem c5_error_taxonomy_witness :
    parse "<blink>x".toList = .error ⟨"blink".toList⟩ :=
  ((c5_error_taxonomy "<blink>x".toList).1 ⟨"blink".toList⟩).mpr
    ⟨.unknownName "blink".toList, by decide, by decide⟩

end TelegramBot
